import Mathlib

/-!
Verification of the IRWA Part 1 preprocessing core
(`text_tokenize.py` and `preprocess.py`).

Modelling conventions:
* Python values arriving from JSON are modelled by the inductive type `Val`
  (None, bool, int, float, str, list, dict).  Python `float` is modelled as
  an exact rational (`ℚ`); every float the pipeline produces comes from a
  decimal literal, so the rational model is exact on all values the claims
  touch.
* Python `str` is modelled by Lean `String`; the development models text
  over the ASCII repertoire, on which `unicodedata.normalize("NFKC", ·)` is
  the identity, `str.lower` is the ASCII case map, the regex class `\w`
  is alphanumeric-or-underscore and `\s` is the ASCII whitespace set.
* `re.sub(r"[^\w\s]+", " ", s)` and `re.sub(r"\s+", " ", s)` replace each
  maximal run of matching characters by a single blank; this is
  `replaceRuns` below.
* The NLTK resources used by `text_tokenize.py` (the English stopword list
  and `PorterStemmer`, which defaults to its NLTK_EXTENSIONS mode) are
  modelled below from the library's fixed data and algorithm.
-/

namespace IRWA

/-- Python value universe for JSON-derived data. `float` carries an exact
rational. Dict keys are strings (JSON object keys). -/
inductive Val where
  | none
  | bool (b : Bool)
  | int (n : Int)
  | float (q : ℚ)
  | str (s : String)
  | list (xs : List Val)
  | dict (xs : List (String × Val))

/-- ASCII lowercase map, as `str.lower` acts on ASCII characters. -/
def lowerChar (c : Char) : Char :=
  if 65 ≤ c.toNat ∧ c.toNat ≤ 90 then Char.ofNat (c.toNat + 32) else c

/-- The regex class `\w` on ASCII: letters, digits, underscore. -/
def isWordChar (c : Char) : Bool :=
  (48 ≤ c.toNat && c.toNat ≤ 57) || (65 ≤ c.toNat && c.toNat ≤ 90) ||
  (97 ≤ c.toNat && c.toNat ≤ 122) || c = '_'

/-- The regex class `\s` on ASCII: blank, tab, newline, carriage return,
vertical tab, form feed. -/
def isSpaceChar (c : Char) : Bool :=
  c = ' ' || c = '\t' || c = '\n' || c = '\r' ||
  c.toNat = 11 || c.toNat = 12

/-- ASCII decimal digit, the regex class `\d` on ASCII. -/
def isDigitChar (c : Char) : Bool :=
  48 ≤ c.toNat && c.toNat ≤ 57

mutual
/-- Model of `re.sub` of a one-class `+` pattern: replace each maximal run of
characters satisfying `p` by a single blank. -/
def replaceRuns (p : Char → Bool) : List Char → List Char
  | [] => []
  | c :: rest =>
    if p c then ' ' :: insideRun p rest else c :: replaceRuns p rest

/-- State of `replaceRuns` while inside a run: skip further members of the
run, the single blank has already been emitted. -/
def insideRun (p : Char → Bool) : List Char → List Char
  | [] => []
  | c :: rest =>
    if p c then insideRun p rest else c :: replaceRuns p rest
end

/-- Python `str.strip()` on ASCII: drop leading and trailing whitespace. -/
def stripChars (cs : List Char) : List Char :=
  ((cs.dropWhile isSpaceChar).reverse.dropWhile isSpaceChar).reverse

/-- Model of `unicodedata.normalize("NFKC", s)`: NFKC normalization, which is the
identity on the ASCII repertoire over which the development models text. -/
def nfkc (s : String) : String := s

/-- The shared normalization pipeline of `text_tokenize._normalize` and
`preprocess._norm` (the two functions' bodies are textually identical):
NFKC, lowercase, replace runs of non-word non-space characters by a blank,
collapse whitespace runs, strip. -/
def normChars (cs : List Char) : List Char :=
  stripChars (replaceRuns isSpaceChar
    (replaceRuns (fun c => !(isWordChar c || isSpaceChar c))
      (cs.map lowerChar)))

/-- String form of the normalization pipeline. -/
def normStr (s : String) : String :=
  String.mk (normChars (nfkc s).toList)

/-- Python `str.split()` (no argument): split on whitespace runs, dropping
empty pieces. The accumulator holds the current token reversed. -/
def splitWSAux (cur : List Char) : List Char → List (List Char)
  | [] => if cur.isEmpty then [] else [cur.reverse]
  | c :: rest =>
    if isSpaceChar c then
      if cur.isEmpty then splitWSAux [] rest
      else cur.reverse :: splitWSAux [] rest
    else splitWSAux (c :: cur) rest

/-- Python `str.split()` returning strings. -/
def pySplit (s : String) : List String :=
  (splitWSAux [] s.toList).map String.mk

/-- Python `str.isdigit()` on ASCII: nonempty and all decimal digits. -/
def pyIsDigit (s : String) : Bool :=
  !s.toList.isEmpty && s.toList.all isDigitChar

/-- The ASCII apostrophe character (several NLTK stopwords contain it). -/
def apoChar : Char := Char.ofNat 39

/-- One-character string holding the apostrophe. -/
def apo : String := String.mk [apoChar]

/-- Contraction builder: `ctr "you" "re"` is the stopword you-apostrophe-re. -/
def ctr (a b : String) : String := a ++ apo ++ b

/-- Model of `stopwords.words("english")` of NLTK: the fixed English stopword list
loaded once into the set `_STOP` by `text_tokenize.py`. -/
def STOP : List String :=
  ["i", "me", "my", "myself", "we", "our", "ours", "ourselves", "you",
   ctr "you" "re", ctr "you" "ve", ctr "you" "ll", ctr "you" "d",
   "your", "yours", "yourself", "yourselves", "he", "him", "his",
   "himself", "she", ctr "she" "s", "her", "hers", "herself", "it",
   ctr "it" "s", "its", "itself", "they", "them", "their", "theirs",
   "themselves", "what", "which", "who", "whom", "this", "that",
   ctr "that" "ll", "these", "those", "am", "is", "are", "was", "were",
   "be", "been", "being", "have", "has", "had", "having", "do", "does",
   "did", "doing", "a", "an", "the", "and", "but", "if", "or", "because",
   "as", "until", "while", "of", "at", "by", "for", "with", "about",
   "against", "between", "into", "through", "during", "before", "after",
   "above", "below", "to", "from", "up", "down", "in", "out", "on", "off",
   "over", "under", "again", "further", "then", "once", "here", "there",
   "when", "where", "why", "how", "all", "any", "both", "each", "few",
   "more", "most", "other", "some", "such", "no", "nor", "not", "only",
   "own", "same", "so", "than", "too", "very", "s", "t", "can", "will",
   "just", "don", ctr "don" "t", "should", ctr "should" "ve", "now",
   "d", "ll", "m", "o", "re", "ve", "y", "ain", "aren", ctr "aren" "t",
   "couldn", ctr "couldn" "t", "didn", ctr "didn" "t", "doesn",
   ctr "doesn" "t", "hadn", ctr "hadn" "t", "hasn", ctr "hasn" "t",
   "haven", ctr "haven" "t", "isn", ctr "isn" "t", "ma", "mightn",
   ctr "mightn" "t", "mustn", ctr "mustn" "t", "needn", ctr "needn" "t",
   "shan", ctr "shan" "t", "shouldn", ctr "shouldn" "t", "wasn",
   ctr "wasn" "t", "weren", ctr "weren" "t", "won", ctr "won" "t",
   "wouldn", ctr "wouldn" "t"]

/-! ### The NLTK Porter stemmer

`text_tokenize.py` stems with `nltk.stem.PorterStemmer()`, whose default
mode is NLTK_EXTENSIONS.  The definitions below model `nltk/stem/porter.py`
in that mode, working on `List Char`. -/

namespace Porter

/-- The vowel set of the Porter stemmer. -/
def vowels : List Char := ['a', 'e', 'i', 'o', 'u']

/-- NLTK `_is_consonant(word, i)`: a vowel letter is not a consonant; `y`
is a consonant at position 0 and after a vowel; everything else is a
consonant.  (NLTK only ever calls it with `i` in range; out of range we
return `false`, which is never exercised.) -/
def isConsonant (w : List Char) : Nat → Bool
  | 0 =>
    match w.get? 0 with
    | Option.none => false
    | Option.some c => !(vowels.contains c)
  | i + 1 =>
    match w.get? (i + 1) with
    | Option.none => false
    | Option.some c =>
      if vowels.contains c then false
      else if c = 'y' then ! isConsonant w i
      else true

/-- The consonant/vowel classification of each position of a word. -/
def consFlags (w : List Char) : List Bool :=
  (List.range w.length).map (isConsonant w)

/-- Count occurrences of a vowel position immediately followed by a
consonant position (`cv_sequence.count("vc")` in NLTK); `prev` is the
classification of the previous position (`true` = consonant). -/
def countVC (prev : Bool) : List Bool → Nat
  | [] => 0
  | b :: rest => (if !prev && b then 1 else 0) + countVC b rest

/-- NLTK `_measure`: the m of the Porter paper. -/
def measure (w : List Char) : Nat := countVC true (consFlags w)

/-- NLTK `_has_positive_measure`. -/
def hpm (st : List Char) : Bool := decide (0 < measure st)

/-- Condition m > 1 used by steps 4, 5a, 5b. -/
def mgt1 (st : List Char) : Bool := decide (1 < measure st)

/-- NLTK `_contains_vowel`. -/
def containsVowel (w : List Char) : Bool :=
  (List.range w.length).any (fun i => ! isConsonant w i)

/-- NLTK `_ends_double_consonant`. -/
def endsDoubleConsonant (w : List Char) : Bool :=
  match w.reverse with
  | a :: b :: _ => a == b && isConsonant w (w.length - 1)
  | _ => false

/-- NLTK `_ends_cvc` in NLTK_EXTENSIONS mode (the two-letter vowel-consonant
special case included). -/
def endsCVC (w : List Char) : Bool :=
  (decide (3 ≤ w.length) && isConsonant w (w.length - 3) &&
    !isConsonant w (w.length - 2) && isConsonant w (w.length - 1) &&
    !(['w', 'x', 'y'].contains (w.getLastD ' '))) ||
  (decide (w.length = 2) && !isConsonant w 0 && isConsonant w 1)

/-- NLTK `_replace_suffix`. -/
def replaceSuffix (w suf repl : List Char) : List Char :=
  w.take (w.length - suf.length) ++ repl

/-- NLTK `_apply_rule_list` for ordinary rules: take the first rule whose
suffix matches; if its condition fails, stop and return the word. -/
def applyRules (w : List Char) :
    List (List Char × List Char × Option (List Char → Bool)) → List Char
  | [] => w
  | (suf, repl, cond) :: rest =>
    if suf.isSuffixOf w then
      let st := w.take (w.length - suf.length)
      match cond with
      | Option.none => st ++ repl
      | Option.some c => if c st then st ++ repl else w
    else applyRules w rest

/-- Unconditional rule. -/
def r0 (a b : String) : List Char × List Char × Option (List Char → Bool) :=
  (a.toList, b.toList, Option.none)

/-- Conditional rule. -/
def rc (a b : String) (c : List Char → Bool) :
    List Char × List Char × Option (List Char → Bool) :=
  (a.toList, b.toList, Option.some c)

/-- NLTK `_step1a` (with the NLTK-only four-letter `ies` → `ie` rule). -/
def step1a (w : List Char) : List Char :=
  if "ies".toList.isSuffixOf w && w.length == 4 then
    replaceSuffix w "ies".toList "ie".toList
  else
    applyRules w [r0 "sses" "ss", r0 "ies" "i", r0 "ss" "ss", r0 "s" ""]

/-- The rule list applied to the intermediate stem after a successful
`ed`/`ing` removal in `_step1b`: at/bl/iz, the double-consonant rule, and
the m=1-and-cvc rule. -/
def post1b (st : List Char) : List Char :=
  if "at".toList.isSuffixOf st then replaceSuffix st "at".toList "ate".toList
  else if "bl".toList.isSuffixOf st then replaceSuffix st "bl".toList "ble".toList
  else if "iz".toList.isSuffixOf st then replaceSuffix st "iz".toList "ize".toList
  else if endsDoubleConsonant st then
    if !(['l', 's', 'z'].contains (st.getLastD ' ')) then st.dropLast else st
  else if measure st == 1 && endsCVC st then st ++ ['e']
  else st

/-- NLTK `_step1b` (with the NLTK-only `ied` rule). -/
def step1b (w : List Char) : List Char :=
  if "ied".toList.isSuffixOf w then
    if w.length == 4 then replaceSuffix w "ied".toList "ie".toList
    else replaceSuffix w "ied".toList "i".toList
  else if "eed".toList.isSuffixOf w then
    let st := replaceSuffix w "eed".toList []
    if hpm st then st ++ "ee".toList else w
  else if "ed".toList.isSuffixOf w && containsVowel (replaceSuffix w "ed".toList []) then
    post1b (replaceSuffix w "ed".toList [])
  else if "ing".toList.isSuffixOf w && containsVowel (replaceSuffix w "ing".toList []) then
    post1b (replaceSuffix w "ing".toList [])
  else w

/-- NLTK `_step1c` with the NLTK_EXTENSIONS condition: `y` → `i` when the
stem has length > 1 and ends in a consonant. -/
def step1c (w : List Char) : List Char :=
  if "y".toList.isSuffixOf w then
    let st := w.dropLast
    if decide (1 < st.length) && isConsonant st (st.length - 1) then
      st ++ ['i']
    else w
  else w

/-- The ordinary rule list of NLTK `_step2` (NLTK_EXTENSIONS: `bli` → `ble`
plus the `fulli` and `logi` extension rules; the `logi` condition inspects
the whole word, not the stem). -/
def step2Rules (w : List Char) :
    List (List Char × List Char × Option (List Char → Bool)) :=
  [rc "ational" "ate" hpm, rc "tional" "tion" hpm, rc "enci" "ence" hpm,
   rc "anci" "ance" hpm, rc "izer" "ize" hpm, rc "bli" "ble" hpm,
   rc "alli" "al" hpm, rc "entli" "ent" hpm, rc "eli" "e" hpm,
   rc "ousli" "ous" hpm, rc "ization" "ize" hpm, rc "ation" "ate" hpm,
   rc "ator" "ate" hpm, rc "alism" "al" hpm, rc "iveness" "ive" hpm,
   rc "fulness" "ful" hpm, rc "ousness" "ous" hpm, rc "aliti" "al" hpm,
   rc "iviti" "ive" hpm, rc "biliti" "ble" hpm, rc "fulli" "ful" hpm,
   rc "logi" "log" (fun _ => hpm (w.take (w.length - 3)))]

/-- NLTK `_step2`: the NLTK_EXTENSIONS `alli` rule applies first and, when
it fires, the result is run through step 2 again.  The recursion is
structural on a fuel counter so that it reduces in the kernel; each firing
of the `alli` rule needs length ≥ 4 and shortens the word by two
characters, so a fuel of the word's length never runs out
(`step2Go_fuel_irrelevant` below makes this exact). -/
def step2Go : Nat → List Char → List Char
  | 0, w => w
  | fuel + 1, w =>
    if "alli".toList.isSuffixOf w && hpm (replaceSuffix w "alli".toList []) then
      step2Go fuel (replaceSuffix w "alli".toList "al".toList)
    else applyRules w (step2Rules w)

/-- NLTK `_step2`. -/
def step2 (w : List Char) : List Char := step2Go w.length w

/-- NLTK `_step3`. -/
def step3 (w : List Char) : List Char :=
  applyRules w
    [rc "icate" "ic" hpm, rc "ative" "" hpm, rc "alize" "al" hpm,
     rc "iciti" "ic" hpm, rc "ical" "ic" hpm, rc "ful" "" hpm,
     rc "ness" "" hpm]

/-- NLTK `_step4` (the `ion` rule also asks that the stem end in `s` or
`t`). -/
def step4 (w : List Char) : List Char :=
  applyRules w
    [rc "al" "" mgt1, rc "ance" "" mgt1, rc "ence" "" mgt1, rc "er" "" mgt1,
     rc "ic" "" mgt1, rc "able" "" mgt1, rc "ible" "" mgt1, rc "ant" "" mgt1,
     rc "ement" "" mgt1, rc "ment" "" mgt1, rc "ent" "" mgt1,
     rc "ion" "" (fun st => mgt1 st && ['s', 't'].contains (st.getLastD ' ')),
     rc "ou" "" mgt1, rc "ism" "" mgt1, rc "ate" "" mgt1, rc "iti" "" mgt1,
     rc "ous" "" mgt1, rc "ive" "" mgt1, rc "ize" "" mgt1]

/-- NLTK `_step5a`. -/
def step5a (w : List Char) : List Char :=
  if "e".toList.isSuffixOf w then
    let st := w.dropLast
    if mgt1 st then st
    else if measure st == 1 && !endsCVC st then st
    else w
  else w

/-- NLTK `_step5b`: `ll` → `l` when the measure of the word minus its last
letter exceeds 1. -/
def step5b (w : List Char) : List Char :=
  if "ll".toList.isSuffixOf w && mgt1 w.dropLast then w.dropLast else w

/-- The NLTK_EXTENSIONS pool of irregular forms, flattened to a lookup
list (each form mapped to its fixed stem). -/
def pool : List (String × String) :=
  [("sky", "sky"), ("skies", "sky"), ("dying", "die"), ("lying", "lie"),
   ("tying", "tie"), ("news", "news"), ("innings", "inning"),
   ("inning", "inning"), ("outings", "outing"), ("outing", "outing"),
   ("cannings", "canning"), ("canning", "canning"), ("howe", "howe"),
   ("proceed", "proceed"), ("exceed", "exceed"), ("succeed", "succeed")]

end Porter

/-- NLTK `PorterStemmer().stem(word)` in NLTK_EXTENSIONS mode: lowercase,
return the pooled irregular stem if the word is pooled, return words of
length at most 2 unchanged, otherwise run steps 1a through 5b. -/
def nltkStem (word : String) : String :=
  let low := String.mk (word.toList.map lowerChar)
  match Porter.pool.lookup word with
  | Option.some r => r
  | Option.none =>
    if word.length ≤ 2 then word
    else
      String.mk (Porter.step5b (Porter.step5a (Porter.step4 (Porter.step3
        (Porter.step2 (Porter.step1c (Porter.step1b (Porter.step1a
          low.toList))))))))

/-! ### `text_tokenize.py` entry points -/

/-- Model of `text_tokenize._normalize`: canonicalize unicode, lowercase, strip
punctuation and collapse whitespace; non-string input returns the empty
string. -/
def _normalize (text : Val) : String :=
  match text with
  | Val.str t => normStr t
  | _ => ""

/-- Model of `text_tokenize.build_terms`: normalize, split, remove stopwords, stem,
drop one-character and digit-only tokens. -/
def build_terms (text : Val) : List String :=
  let s := _normalize text
  let tokens := pySplit s
  let tokens := tokens.filter (fun t => !(STOP.contains t))
  let tokens := tokens.map nltkStem
  tokens.filter (fun t => decide (1 < t.length) && !(pyIsDigit t))

/-! ### Python built-in behaviors used by `preprocess.py` -/

mutual
/-- Python `repr` restricted to JSON-shaped values, used by `str` on
containers.  Strings are quoted with an apostrophe (escaping of quotes
inside strings is not modelled; no claim evaluates it).  Non-integral
floats are rendered approximately (no claim evaluates `str` on them). -/
def pyRepr : Val → String
  | Val.none => "None"
  | Val.bool b => if b then "True" else "False"
  | Val.int n => toString n
  | Val.float q =>
    if q.den = 1 then toString q.num ++ ".0"
    else toString q.num ++ "/" ++ toString q.den
  | Val.str s => apo ++ s ++ apo
  | Val.list xs => "[" ++ pyReprList xs ++ "]"
  | Val.dict xs =>
    String.mk [Char.ofNat 123] ++ pyReprDict xs ++ String.mk [Char.ofNat 125]

/-- Comma-joined `repr` of list elements. -/
def pyReprList : List Val → String
  | [] => ""
  | [v] => pyRepr v
  | v :: rest => pyRepr v ++ ", " ++ pyReprList rest

/-- Comma-joined `repr` of dict entries. -/
def pyReprDict : List (String × Val) → String
  | [] => ""
  | [kv] => apo ++ kv.1 ++ apo ++ ": " ++ pyRepr kv.2
  | kv :: rest => apo ++ kv.1 ++ apo ++ ": " ++ pyRepr kv.2 ++ ", " ++ pyReprDict rest
end

/-- Python `str(x)`: identity on strings, `repr` otherwise (for the
JSON-shaped universe). -/
def pyStr : Val → String
  | Val.str s => s
  | v => pyRepr v

/-- Python truthiness `bool(x)` on the JSON-shaped universe. -/
def pyBool : Val → Bool
  | Val.none => false
  | Val.bool b => b
  | Val.int n => n != 0
  | Val.float q => q != 0
  | Val.str s => s != ""
  | Val.list xs => !xs.isEmpty
  | Val.dict xs => !xs.isEmpty

/-- Python `dict.get(k, dflt)`: a raw record is an association list; lookup
the key, defaulting. -/
def pyGet (doc : List (String × Val)) (k : String) (dflt : Val) : Val :=
  match doc.lookup k with
  | Option.some v => v
  | Option.none => dflt

/-! ### `preprocess.py` helpers -/

/-- Model of `preprocess._norm`: facet normalizer — non-string to empty string, else
the NFKC / lowercase / punctuation-strip / whitespace-collapse / trim
pipeline (its body is the string pipeline shared with
`text_tokenize._normalize`). -/
def _norm (v : Val) : String :=
  match v with
  | Val.str s => normStr s
  | _ => ""

/-- The value of the digit string before an optional dot. -/
def digitsToNat (cs : List Char) : Nat :=
  cs.foldl (fun a c => 10 * a + (c.toNat - 48)) 0

/-- Exact value of a decimal numeral `digits` or `digits.digits`, as
Python `float(...)` parses the regex match (the rational model is exact
on these numerals). -/
def parseDec (cs : List Char) : ℚ :=
  let ip := cs.takeWhile (fun c => !(c = '.'))
  let fp := (cs.dropWhile (fun c => !(c = '.'))).drop 1
  (digitsToNat ip : ℚ) + (digitsToNat fp : ℚ) / (10 : ℚ) ^ fp.length

/-- The first (leftmost, greedy) match of the regex `\d+(?:\.\d+)?`:
scan to the first digit, take the maximal digit run, then a dot followed
by a further maximal digit run when one is present. -/
def firstNumMatch : List Char → Option (List Char)
  | [] => Option.none
  | c :: rest =>
    if isDigitChar c then
      let ds := (c :: rest).takeWhile isDigitChar
      let after := (c :: rest).dropWhile isDigitChar
      match after with
      | '.' :: d :: _ =>
        if isDigitChar d then
          Option.some (ds ++ '.' :: (after.drop 1).takeWhile isDigitChar)
        else Option.some ds
      | _ => Option.some ds
    else firstNumMatch rest

/-- Model of `preprocess._num`: parse price-like values to float — `None` maps to
`None`; otherwise stringify, drop every comma, and convert the first
`\d+(?:\.\d+)?` match, if any, to float. -/
def _num (x : Val) : Option ℚ :=
  match x with
  | Val.none => Option.none
  | _ =>
    let s := (pyStr x).toList.filter (fun c => !(c = ','))
    (firstNumMatch s).map parseDec

/-- Model of `preprocess._disc`: extract a discount fraction — `None` maps to
`None`; otherwise stringify (commas kept) and divide the first
`\d+(?:\.\d+)?` match by 100. -/
def _disc (x : Val) : Option ℚ :=
  match x with
  | Val.none => Option.none
  | _ => (firstNumMatch (pyStr x).toList).map (fun cs => parseDec cs / 100)

/-- Python `float(str)` on plain decimal forms: strip whitespace, optional
sign, digits with an optional single dot, nothing left over.  (Exponent
and inf/nan forms are not modelled; no claim evaluates them.) -/
def parseUnsignedFloat (cs : List Char) : Option ℚ :=
  let ip := cs.takeWhile isDigitChar
  let rest := cs.drop ip.length
  match rest with
  | [] => if ip.isEmpty then Option.none else Option.some (digitsToNat ip : ℚ)
  | '.' :: fr =>
    let fp := fr.takeWhile isDigitChar
    if !(fr.drop fp.length).isEmpty then Option.none
    else if ip.isEmpty && fp.isEmpty then Option.none
    else Option.some ((digitsToNat ip : ℚ) + (digitsToNat fp : ℚ) / (10 : ℚ) ^ fp.length)
  | _ => Option.none

/-- Python `float(s)` for a string argument. -/
def pyFloatOfString (s : String) : Option ℚ :=
  match stripChars s.toList with
  | '+' :: rest => parseUnsignedFloat rest
  | '-' :: rest => (parseUnsignedFloat rest).map Neg.neg
  | cs => parseUnsignedFloat cs

/-- Model of `preprocess._rating`: `float(x)` under try/except — any failure yields
`None`.  `float` accepts bools, ints, floats and numeric strings and
rejects `None`, lists and dicts. -/
def _rating (x : Val) : Option ℚ :=
  match x with
  | Val.none => Option.none
  | Val.bool b => Option.some (if b then 1 else 0)
  | Val.int n => Option.some (n : ℚ)
  | Val.float q => Option.some q
  | Val.str s => pyFloatOfString s
  | Val.list _ => Option.none
  | Val.dict _ => Option.none

/-- The flat `items` sequence built by `preprocess._details_tokens`:
a dict contributes its entries; a list contributes the entries of each
contained dict, non-dict elements silently skipped; anything else
contributes nothing.  (JSON object keys are strings, so a key is the
string value of the entry's key.) -/
def detailsItems : Val → List (String × Val)
  | Val.dict xs => xs
  | Val.list ds =>
    ds.flatMap (fun d =>
      match d with
      | Val.dict xs => xs
      | _ => [])
  | _ => []

/-- Model of `preprocess._details_tokens`: tokenize the string form of each key and
of each value, in pair order, key tokens before value tokens. -/
def _details_tokens (lst : Val) : List String :=
  (detailsItems lst).flatMap (fun kv =>
    build_terms (Val.str kv.1) ++ build_terms (Val.str (pyStr kv.2)))

/-- The brand branch of `preprocess.preprocess_row`: NFKC, lowercase, strip
for strings, with empty-after-strip replaced by the sentinel; non-strings
map to the sentinel. -/
def brandNorm (brand_raw : Val) : String :=
  match brand_raw with
  | Val.str s =>
    let b := String.mk (stripChars (((nfkc s).toList.map lowerChar)))
    if b = "" then "unknown" else b
  | _ => "unknown"

/-- Model of `preprocess.preprocess_row`: transform one raw product dict into the
normalized, tokenized record (a Python dict, modelled as an association
list in the literal's key order). -/
def preprocess_row (doc : List (String × Val)) : List (String × Val) :=
  let title := pyGet doc "title" (Val.str "")
  let desc := pyGet doc "description" (Val.str "")
  let brand := brandNorm (pyGet doc "brand" (Val.str ""))
  let optQ : Option ℚ → Val := fun o =>
    match o with
    | Option.some q => Val.float q
    | Option.none => Val.none
  [("pid", pyGet doc "pid" Val.none),
   ("title_raw", title),
   ("description_raw", desc),
   ("product_details_raw", pyGet doc "product_details" (Val.dict [])),
   ("discount_raw", pyGet doc "discount" Val.none),
   ("url", pyGet doc "url" (Val.str "")),
   ("brand", Val.str brand),
   ("category", Val.str (_norm (pyGet doc "category" (Val.str "")))),
   ("sub_category", Val.str (_norm (pyGet doc "sub_category" (Val.str "")))),
   ("seller", Val.str (_norm (pyGet doc "seller" (Val.str "")))),
   ("title_tokens", Val.list ((build_terms title).map Val.str)),
   ("desc_tokens", Val.list ((build_terms desc).map Val.str)),
   ("details_tokens",
     Val.list ((_details_tokens (pyGet doc "product_details" (Val.list []))).map Val.str)),
   ("out_of_stock", Val.bool (pyBool (pyGet doc "out_of_stock" (Val.bool false)))),
   ("selling_price", optQ (_num (pyGet doc "selling_price" Val.none))),
   ("actual_price", optQ (_num (pyGet doc "actual_price" Val.none))),
   ("discount_frac", optQ (_disc (pyGet doc "discount" Val.none))),
   ("average_rating", optQ (_rating (pyGet doc "average_rating" Val.none)))]

/-- The NormalizedRecord field names, in the order `preprocess_row` emits
them. -/
def recordFields : List String :=
  ["pid", "title_raw", "description_raw", "product_details_raw",
   "discount_raw", "url", "brand", "category", "sub_category", "seller",
   "title_tokens", "desc_tokens", "details_tokens", "out_of_stock",
   "selling_price", "actual_price", "discount_frac", "average_rating"]

/-- The numeric parser as §4.2 of the specification words it: null maps to
absent; otherwise stringify, strip the thousands-separator commas, extract
the first decimal-or-integer numeric substring via pattern match, absent
when there is no match, else parse to float. -/
def numSpec (x : Val) : Option ℚ :=
  match x with
  | Val.none => Option.none
  | _ =>
    match firstNumMatch ((pyStr x).toList.filter (fun c => !(c = ','))) with
    | Option.none => Option.none
    | Option.some m => Option.some (parseDec m)

/-! ### Facts about the normalization pipeline -/

theorem toNat_ofNat_valid (n : Nat) (h : n.isValidChar) :
    (Char.ofNat n).toNat = n := by
  simp [Char.ofNat, h, Char.ofNatAux, Char.toNat, UInt32.toNat, UInt32.ofNat',
    BitVec.toNat_ofNatLt]

theorem lowerChar_idem (c : Char) : lowerChar (lowerChar c) = lowerChar c := by
  unfold lowerChar
  split
  case isTrue h =>
    have hv : (c.toNat + 32).isValidChar := Or.inl (by omega)
    have ht : (Char.ofNat (c.toNat + 32)).toNat = c.toNat + 32 :=
      toNat_ofNat_valid _ hv
    rw [if_neg]
    omega
  case isFalse h => rfl

/-- Characters produced by `replaceRuns` come from the input or are the
blank. -/
theorem mem_replaceRuns_aux (p : Char → Bool) (c : Char) :
    ∀ l : List Char, (c ∈ replaceRuns p l → c ∈ l ∨ c = ' ') ∧
      (c ∈ insideRun p l → c ∈ l ∨ c = ' ')
  | [] => by
    constructor <;> intro h <;> simp [replaceRuns, insideRun] at h
  | a :: rest => by
    obtain ⟨ih1, ih2⟩ := mem_replaceRuns_aux p c rest
    constructor
    · intro h
      rw [replaceRuns] at h
      by_cases hp : p a
      · rw [if_pos hp] at h
        rcases List.mem_cons.mp h with h | h
        · exact Or.inr h
        · rcases ih2 h with h | h
          · exact Or.inl (List.mem_cons_of_mem _ h)
          · exact Or.inr h
      · rw [if_neg hp] at h
        rcases List.mem_cons.mp h with h | h
        · exact Or.inl (List.mem_cons.mpr (Or.inl h))
        · rcases ih1 h with h | h
          · exact Or.inl (List.mem_cons_of_mem _ h)
          · exact Or.inr h
    · intro h
      rw [insideRun] at h
      by_cases hp : p a
      · rw [if_pos hp] at h
        rcases ih2 h with h | h
        · exact Or.inl (List.mem_cons_of_mem _ h)
        · exact Or.inr h
      · rw [if_neg hp] at h
        rcases List.mem_cons.mp h with h | h
        · exact Or.inl (List.mem_cons.mpr (Or.inl h))
        · rcases ih1 h with h | h
          · exact Or.inl (List.mem_cons_of_mem _ h)
          · exact Or.inr h

theorem mem_replaceRuns {p : Char → Bool} {c : Char} {l : List Char}
    (h : c ∈ replaceRuns p l) : c ∈ l ∨ c = ' ' :=
  (mem_replaceRuns_aux p c l).1 h

/-- A list with no character matching `p` is a fixpoint of `replaceRuns`. -/
theorem replaceRuns_eq_self (p : Char → Bool) :
    ∀ l : List Char, (∀ c ∈ l, p c = false) → replaceRuns p l = l
  | [] => fun _ => rfl
  | a :: rest => fun h => by
    rw [replaceRuns, if_neg, replaceRuns_eq_self p rest]
    · intro c hc
      exact h c (List.mem_cons_of_mem _ hc)
    · simp [h a (List.mem_cons_self a rest)]

/-- When the blank does not match `p`, no character of the output of
`replaceRuns p` matches `p`. -/
theorem replaceRuns_pfalse_aux (p : Char → Bool) (hb : p ' ' = false) :
    ∀ l : List Char, (∀ c ∈ replaceRuns p l, p c = false) ∧
      (∀ c ∈ insideRun p l, p c = false)
  | [] => by constructor <;> intro c hc <;> simp [replaceRuns, insideRun] at hc
  | a :: rest => by
    obtain ⟨ih1, ih2⟩ := replaceRuns_pfalse_aux p hb rest
    constructor
    · intro c hc
      rw [replaceRuns] at hc
      by_cases hp : p a
      · rw [if_pos hp] at hc
        rcases List.mem_cons.mp hc with rfl | hc
        · exact hb
        · exact ih2 c hc
      · rw [if_neg hp] at hc
        rcases List.mem_cons.mp hc with rfl | hc
        · exact Bool.eq_false_iff.mpr hp
        · exact ih1 c hc
    · intro c hc
      rw [insideRun] at hc
      by_cases hp : p a
      · rw [if_pos hp] at hc
        exact ih2 c hc
      · rw [if_neg hp] at hc
        rcases List.mem_cons.mp hc with rfl | hc
        · exact Bool.eq_false_iff.mpr hp
        · exact ih1 c hc

/-- Adjacency relation: not both characters are whitespace. -/
def noSpPair (a b : Char) : Prop :=
  ¬(isSpaceChar a = true ∧ isSpaceChar b = true)

/-- Every whitespace character of the list is the plain blank. -/
def spAll (l : List Char) : Prop :=
  ∀ c ∈ l, isSpaceChar c = true → c = ' '

/-- Shape of the output of whitespace-run collapsing: every whitespace
character is a blank and no two adjacent characters are whitespace. -/
theorem collapse_shape :
    ∀ l : List Char,
      (spAll (replaceRuns isSpaceChar l) ∧
        List.Chain' noSpPair (replaceRuns isSpaceChar l)) ∧
      (spAll (insideRun isSpaceChar l) ∧
        List.Chain' noSpPair (insideRun isSpaceChar l) ∧
        ∀ c, (insideRun isSpaceChar l).head? = Option.some c →
          isSpaceChar c = false)
  | [] => by
    refine ⟨⟨?_, ?_⟩, ?_, ?_, ?_⟩ <;>
      simp [replaceRuns, insideRun, spAll]
  | a :: rest => by
    obtain ⟨⟨ihR1, ihR2⟩, ihI1, ihI2, ihI3⟩ := collapse_shape rest
    by_cases hp : isSpaceChar a
    · constructor
      · rw [replaceRuns, if_pos hp]
        constructor
        · intro c hc _
          rcases List.mem_cons.mp hc with rfl | hc
          · rfl
          · exact ihI1 c hc (by assumption)
        · refine List.chain'_cons'.mpr ⟨?_, ihI2⟩
          intro y hy
          have := ihI3 y (by simpa using hy)
          exact fun hpair => by simp [this] at hpair
      · rw [insideRun, if_pos hp]
        exact ⟨ihI1, ihI2, ihI3⟩
    · constructor
      · rw [replaceRuns, if_neg hp]
        constructor
        · intro c hc hsp
          rcases List.mem_cons.mp hc with rfl | hc
          · exact absurd hsp (by simpa using hp)
          · exact ihR1 c hc hsp
        · refine List.chain'_cons'.mpr ⟨?_, ihR2⟩
          intro y _
          exact fun hpair => hp (by simp [hpair.1])
      · rw [insideRun, if_neg hp]
        refine ⟨?_, ?_, ?_⟩
        · intro c hc hsp
          rcases List.mem_cons.mp hc with rfl | hc
          · exact absurd hsp (by simpa using hp)
          · exact ihR1 c hc hsp
        · refine List.chain'_cons'.mpr ⟨?_, ihR2⟩
          intro y _
          exact fun hpair => hp (by simp [hpair.1])
        · intro c hc
          obtain rfl : a = c := by simpa using hc
          simpa using hp

/-- A list whose whitespace is blank and isolated is a fixpoint of
whitespace-run collapsing. -/
theorem replaceRuns_sp_eq_self :
    ∀ l : List Char, spAll l → List.Chain' noSpPair l →
      replaceRuns isSpaceChar l = l
  | [] => fun _ _ => rfl
  | a :: rest => fun hall hch => by
    have hallr : spAll rest := fun c hc => hall c (List.mem_cons_of_mem _ hc)
    have hchr : List.Chain' noSpPair rest := (List.chain'_cons'.mp hch).2
    by_cases hp : isSpaceChar a
    · have ha : a = ' ' := hall a (List.mem_cons_self a rest) hp
      rw [replaceRuns, if_pos hp, ha]
      congr 1
      match rest, hallr, hchr with
      | [], _, _ => rfl
      | d :: rest2, hallr, hchr =>
        have hd : isSpaceChar d = false := by
          have := (List.chain'_cons'.mp hch).1 d (by simp)
          by_contra hdx
          exact this ⟨hp, by simpa using hdx⟩
        have hrec := replaceRuns_sp_eq_self (d :: rest2) hallr hchr
        rw [replaceRuns, if_neg (by simp [hd])] at hrec
        rw [insideRun, if_neg (by simp [hd])]
        exact hrec
    · rw [replaceRuns, if_neg hp, replaceRuns_sp_eq_self rest hallr hchr]

theorem dropWhile_dropWhile (p : Char → Bool) :
    ∀ l : List Char, (l.dropWhile p).dropWhile p = l.dropWhile p
  | [] => rfl
  | a :: rest => by
    by_cases hp : p a
    · rw [List.dropWhile_cons_of_pos hp, dropWhile_dropWhile p rest]
    · rw [List.dropWhile_cons_of_neg hp, List.dropWhile_cons_of_neg hp]

/-- Equation: `stripChars` written with a trailing-side helper. -/
theorem stripChars_eq (cs : List Char) :
    stripChars cs =
      (((cs.dropWhile isSpaceChar).reverse.dropWhile isSpaceChar).reverse) := rfl

theorem head_eq_of_listPre {l₁ l₂ : List Char} (h : l₁ <+: l₂)
    (hne : l₁ ≠ []) : l₁.head? = l₂.head? := by
  obtain ⟨t, rfl⟩ := h
  cases l₁ with
  | nil => exact absurd rfl hne
  | cons a l => rfl

theorem stripChars_idem (l : List Char) :
    stripChars (stripChars l) = stripChars l := by
  set S := isSpaceChar
  have dtm : ∀ m : List Char, (m.reverse.dropWhile S).reverse <+: m := by
    intro m
    have h1 : (m.reverse.dropWhile S) <:+ m.reverse := List.dropWhile_suffix S
    have h2 : ((m.reverse.dropWhile S).reverse).reverse <:+ m.reverse := by
      rw [List.reverse_reverse]
      exact h1
    exact List.reverse_suffix.mp h2
  have hdw : ∀ m : List Char,
      (∀ c, m.head? = Option.some c → S c = false) →
      ((m.reverse.dropWhile S).reverse).dropWhile S =
        (m.reverse.dropWhile S).reverse := by
    intro m hm
    cases hdt : (m.reverse.dropWhile S).reverse with
    | nil => rfl
    | cons a t =>
      have hpre := dtm m
      rw [hdt] at hpre
      have hh : (a :: t).head? = m.head? := head_eq_of_listPre hpre (by simp)
      have ha : S a = false := hm a (by rw [← hh]; rfl)
      rw [List.dropWhile_cons_of_neg (by simp [ha])]
  have hmhead : ∀ m : List Char, ∀ c,
      (m.dropWhile S).head? = Option.some c → S c = false := by
    intro m c hc
    have := List.head?_dropWhile_not S m
    rw [hc] at this
    simpa using this
  show ((((stripChars l).dropWhile S).reverse.dropWhile S).reverse) = stripChars l
  rw [stripChars_eq l, hdw (l.dropWhile S) (hmhead l)]
  have : ∀ m : List Char,
      ((m.reverse.dropWhile S).reverse.reverse.dropWhile S).reverse =
        (m.reverse.dropWhile S).reverse := by
    intro m
    rw [List.reverse_reverse, dropWhile_dropWhile]
  exact this (l.dropWhile S)

theorem spAll_stripChars {l : List Char} (h : spAll l) :
    spAll (stripChars l) := by
  intro c hc hsp
  refine h c ?_ hsp
  rw [stripChars_eq] at hc
  rw [List.mem_reverse] at hc
  have hc2 := List.dropWhile_subset _ hc
  rw [List.mem_reverse] at hc2
  exact List.dropWhile_subset _ hc2

theorem chain_stripChars {l : List Char} (h : List.Chain' noSpPair l) :
    List.Chain' noSpPair (stripChars l) := by
  have hsymm : ∀ a b, noSpPair a b → noSpPair b a := by
    intro a b hab hba
    exact hab ⟨hba.2, hba.1⟩
  have h1 : List.Chain' noSpPair (l.dropWhile isSpaceChar) :=
    h.suffix (List.dropWhile_suffix _)
  have h2 : List.Chain' noSpPair ((l.dropWhile isSpaceChar).reverse) := by
    rw [List.chain'_reverse]
    exact h1.imp (fun {a b} => hsymm a b)
  have h3 : List.Chain' noSpPair
      ((l.dropWhile isSpaceChar).reverse.dropWhile isSpaceChar) :=
    h2.suffix (List.dropWhile_suffix _)
  rw [stripChars_eq, List.chain'_reverse]
  exact h3.imp (fun {a b} => hsymm a b)

theorem mem_stripChars {c : Char} {l : List Char} (h : c ∈ stripChars l) :
    c ∈ l := by
  rw [stripChars_eq, List.mem_reverse] at h
  have h2 := List.dropWhile_subset _ h
  rw [List.mem_reverse] at h2
  exact List.dropWhile_subset _ h2

/-- The normalization pipeline is idempotent. -/
theorem normChars_idem (cs : List Char) :
    normChars (normChars cs) = normChars cs := by
  set P : Char → Bool := fun c => !(isWordChar c || isSpaceChar c) with hP
  set z1 := cs.map lowerChar with hz1
  set z2 := replaceRuns P z1 with hz2
  set z3 := replaceRuns isSpaceChar z2 with hz3
  have hy : normChars cs = stripChars z3 := rfl
  set y := stripChars z3 with hyy
  have hmem3 : ∀ c ∈ y, c ∈ z3 := fun c hc => mem_stripChars hc
  have hmem2 : ∀ c ∈ y, c ∈ z2 ∨ c = ' ' := fun c hc =>
    mem_replaceRuns (hmem3 c hc)
  have hmem1 : ∀ c ∈ y, c ∈ z1 ∨ c = ' ' := by
    intro c hc
    rcases hmem2 c hc with h | h
    · exact mem_replaceRuns h
    · exact Or.inr h
  -- stage 1: lowercasing is the identity on y
  have hlow : y.map lowerChar = y := by
    have : ∀ c ∈ y, lowerChar c = c := by
      intro c hc
      rcases hmem1 c hc with h | rfl
      · rw [hz1] at h
        obtain ⟨c0, _, rfl⟩ := List.mem_map.mp h
        exact lowerChar_idem c0
      · rfl
    calc y.map lowerChar = y.map id := List.map_congr_left this
    _ = y := List.map_id y
  -- stage 2: punctuation replacement is the identity on y
  have hpunct : replaceRuns P y = y := by
    refine replaceRuns_eq_self P y ?_
    intro c hc
    rcases hmem2 c hc with h | rfl
    · exact (replaceRuns_pfalse_aux P (by simp [hP, isWordChar, isSpaceChar]) z1).1 c h
    · simp [hP, isWordChar, isSpaceChar]
  -- stage 3: whitespace collapsing is the identity on y
  have hcol : replaceRuns isSpaceChar y = y := by
    have h3 := (collapse_shape z2).1
    exact replaceRuns_sp_eq_self y (spAll_stripChars h3.1)
      (chain_stripChars h3.2)
  -- stage 4: stripping is the identity on y
  have hstrip : stripChars y = y := stripChars_idem z3
  show stripChars (replaceRuns isSpaceChar (replaceRuns P (y.map lowerChar))) = y
  rw [hlow, hpunct, hcol, hstrip]

/-! ### Fuel adequacy of step 2 of the stemmer -/

theorem replaceSuffix_alli_length {w : List Char}
    (h : ("alli".toList.isSuffixOf w) = true) :
    (Porter.replaceSuffix w "alli".toList "al".toList).length = w.length - 2 := by
  have hs : ("alli".toList : List Char) <:+ w := by simpa using h
  have h4 : 4 ≤ w.length := by simpa using hs.length_le
  simp only [Porter.replaceSuffix, List.length_append, List.length_take]
  norm_num
  omega

/-- Any fuel of at least half the word length computes the same value, so
`step2`'s fuel of the full word length is always enough: the function
agrees with NLTK's unbounded recursion. -/
theorem step2Go_fuel_irrelevant :
    ∀ (f₁ : Nat), ∀ (f₂ : Nat) (w : List Char), w.length ≤ 2 * f₁ →
      w.length ≤ 2 * f₂ → Porter.step2Go f₁ w = Porter.step2Go f₂ w
  | 0 => by
    intro f₂ w h₁ _
    have hw : w = [] := List.eq_nil_of_length_eq_zero (by omega)
    subst hw
    cases f₂ with
    | zero => rfl
    | succ f => rfl
  | f₁ + 1 => by
    intro f₂ w h₁ h₂
    by_cases hg : ("alli".toList.isSuffixOf w &&
        Porter.hpm (Porter.replaceSuffix w "alli".toList [])) = true
    · have hgA := hg
      rw [Bool.and_eq_true] at hgA
      have hs : ("alli".toList : List Char) <:+ w := by
        simpa using hgA.1
      have h4 : 4 ≤ w.length := by simpa using hs.length_le
      have hlen : (Porter.replaceSuffix w "alli".toList "al".toList).length =
          w.length - 2 := replaceSuffix_alli_length hgA.1
      cases f₂ with
      | zero => omega
      | succ f =>
        rw [Porter.step2Go, Porter.step2Go, if_pos hg, if_pos hg]
        exact step2Go_fuel_irrelevant f₁ f _ (by omega) (by omega)
    · cases f₂ with
      | zero =>
        have hw : w = [] := List.eq_nil_of_length_eq_zero (by omega)
        subst hw
        rfl
      | succ f =>
        rw [Porter.step2Go, Porter.step2Go, if_neg hg, if_neg hg]

/-! ## The claims -/

/-- Record-structure helper: the discount_frac entry of a normalized
record is the image of `_disc` on the raw discount value. -/
theorem lookup_discount_frac (doc : List (String × Val)) :
    (preprocess_row doc).lookup "discount_frac" =
      Option.some (match _disc (pyGet doc "discount" Val.none) with
        | Option.some q => Val.float q
        | Option.none => Val.none) := rfl

/-- Record-structure helper: the out_of_stock entry of a normalized record
is the truthiness of the raw value, defaulting to false. -/
theorem lookup_out_of_stock (doc : List (String × Val)) :
    (preprocess_row doc).lookup "out_of_stock" =
      Option.some (Val.bool (pyBool (pyGet doc "out_of_stock" (Val.bool false)))) := rfl

theorem parseDec_nonneg (cs : List Char) : 0 ≤ parseDec cs := by
  unfold parseDec
  positivity

theorem disc_nonneg (x : Val) (q : ℚ) (h : _disc x = Option.some q) :
    0 ≤ q := by
  have hgen : ∀ o : Option (List Char),
      o.map (fun cs => parseDec cs / 100) = Option.some q → 0 ≤ q := by
    intro o ho
    rw [Option.map_eq_some'] at ho
    obtain ⟨cs, _, rfl⟩ := ho
    exact div_nonneg (parseDec_nonneg cs) (by norm_num)
  cases x with
  | none => simp [_disc] at h
  | bool b => exact hgen _ h
  | int n => exact hgen _ h
  | float r => exact hgen _ h
  | str s => exact hgen _ h
  | list xs => exact hgen _ h
  | dict xs => exact hgen _ h

/-- C1 (counterexample): the claim is false — `build_terms` can return a
stopword, because stemming runs after stopword removal.  On input
`"hows"`, which is not a stopword, the returned token is `"how"`, which
is in the English stopword set. -/
theorem C1_counterexample :
    "how" ∈ build_terms (Val.str "hows") ∧ "how" ∈ STOP := by
  constructor <;> decide

/-- C1 (amended): every token returned by `build_terms` has length greater
than 1 and is not all digits, and is the Porter stem of some source token
that is not in the stopword set; the stem itself may be a stopword, since
the stopword filter runs before stemming. -/
theorem C1_token_filters (v : Val) (t : String) (h : t ∈ build_terms v) :
    1 < t.length ∧ pyIsDigit t = false ∧ ∃ u, u ∉ STOP ∧ t = nltkStem u := by
  unfold build_terms at h
  rw [List.mem_filter] at h
  obtain ⟨hmem, hfilt⟩ := h
  rw [Bool.and_eq_true] at hfilt
  rw [List.mem_map] at hmem
  obtain ⟨u, hu, rfl⟩ := hmem
  rw [List.mem_filter] at hu
  obtain ⟨_, hust⟩ := hu
  refine ⟨by simpa using hfilt.1, by simpa using hfilt.2, u, ?_, rfl⟩
  intro humem
  rw [Bool.not_eq_eq_eq_not, Bool.not_true] at hust
  simp only [List.contains, List.elem_eq_mem, decide_eq_false_iff_not] at hust
  exact hust humem

/-- C1 (witness for the amended theorem). -/
theorem C1_token_filters_witness :
    1 < ("red" : String).length ∧ pyIsDigit "red" = false ∧
      ∃ u, u ∉ STOP ∧ "red" = nltkStem u :=
  C1_token_filters (Val.str "red shoes") "red" (by decide)

/-- C2: `preprocess_row` is a total function of its raw record (the model
is total by construction over every mapping-shaped value), and its result
has exactly the NormalizedRecord fields as keys, in particular every field
is a present key. -/
theorem C2_fields_present (doc : List (String × Val)) :
    (preprocess_row doc).map Prod.fst = recordFields ∧
    ∀ k ∈ recordFields, ((preprocess_row doc).lookup k).isSome = true := by
  refine ⟨rfl, ?_⟩
  intro k hk
  simp only [recordFields, List.mem_cons, List.not_mem_nil, or_false] at hk
  rcases hk with rfl | rfl | rfl | rfl | rfl | rfl | rfl | rfl | rfl | rfl |
    rfl | rfl | rfl | rfl | rfl | rfl | rfl | rfl <;> rfl

/-- C2 (witness). -/
theorem C2_fields_present_witness :
    ((preprocess_row []).lookup "pid").isSome = true :=
  (C2_fields_present []).2 "pid" (by decide)

/-- C3 (counterexample): the claim is false — on raw discount
`"200% off"` the discount_frac field is 2, not in [0, 1] (the parser does
not clamp). -/
theorem C3_counterexample :
    (preprocess_row [("discount", Val.str "200% off")]).lookup "discount_frac"
      = Option.some (Val.float 2) ∧ ¬((2 : ℚ) ≤ 1) := by
  constructor
  · with_unfolding_all rfl
  · decide

/-- C3 (amended): the discount_frac field is either the absent marker or a
nonnegative float (the first numeric substring divided by 100), which can
exceed 1. -/
theorem C3_discount_frac_absent_or_nonneg (doc : List (String × Val)) :
    (preprocess_row doc).lookup "discount_frac" = Option.some Val.none ∨
    ∃ q : ℚ, (preprocess_row doc).lookup "discount_frac" =
      Option.some (Val.float q) ∧ 0 ≤ q := by
  rw [lookup_discount_frac]
  cases hd : _disc (pyGet doc "discount" Val.none) with
  | none => exact Or.inl rfl
  | some q => exact Or.inr ⟨q, rfl, disc_nonneg _ _ hd⟩

/-- C4: the numeric parser agrees everywhere with the specification's
description (stringify, strip commas, first numeric substring, parse;
null to absent), and on the cited examples. -/
theorem C4_num_parsing :
    (∀ x, _num x = numSpec x) ∧
    _num Val.none = Option.none ∧
    _num (Val.str "1,299") = Option.some 1299 ∧
    _num (Val.str "Rs. 499.50 only") = Option.some (999 / 2) ∧
    _num (Val.str "no price") = Option.none := by
  have hmap : ∀ o : Option (List Char),
      o.map parseDec = (match o with
        | Option.none => Option.none
        | Option.some m => Option.some (parseDec m)) := by
    intro o
    cases o <;> rfl
  refine ⟨?_, rfl, ?_, ?_, rfl⟩
  · intro x
    cases x with
    | none => rfl
    | bool b => exact hmap _
    | int n => exact hmap _
    | float q => exact hmap _
    | str s => exact hmap _
    | list xs => exact hmap _
    | dict xs => exact hmap _
  · with_unfolding_all rfl
  · with_unfolding_all rfl

/-- C5: the structured-details tokenizer flattens product_details to
(key, value) pairs — a mapping's entries; for a sequence the concatenated
entries of every contained mapping with non-mapping elements skipped;
empty otherwise — and returns, in pair order, the tokens of each key
followed by the tokens of its value's string form; on the cited example
it yields the tokenized Material, Cotton, Fit, Slim Fit in order. -/
theorem C5_details_tokens :
    (∀ v, _details_tokens v = (detailsItems v).flatMap
      (fun kv => build_terms (Val.str kv.1) ++ build_terms (Val.str (pyStr kv.2)))) ∧
    (∀ m, detailsItems (Val.dict m) = m) ∧
    (∀ ds, detailsItems (Val.list ds) =
      ds.flatMap (fun d => match d with | Val.dict xs => xs | _ => [])) ∧
    (∀ v, (∀ m, v ≠ Val.dict m) → (∀ ds, v ≠ Val.list ds) →
      detailsItems v = []) ∧
    _details_tokens (Val.list [Val.dict [("Material", Val.str "Cotton")],
      Val.dict [("Fit", Val.str "Slim Fit")]]) =
      ["materi", "cotton", "fit", "slim", "fit"] := by
  refine ⟨fun v => rfl, fun m => rfl, fun ds => rfl, ?_, by decide⟩
  intro v h1 h2
  cases v with
  | dict m => exact absurd rfl (h1 m)
  | list ds => exact absurd rfl (h2 ds)
  | none => rfl
  | bool b => rfl
  | int n => rfl
  | float q => rfl
  | str s => rfl

/-- C5 (witness). -/
theorem C5_details_tokens_witness : detailsItems Val.none = [] :=
  C5_details_tokens.2.2.2.1 Val.none (fun m h => Val.noConfusion h)
    (fun ds h => Val.noConfusion h)

/-- C6: the brand normalizer is exactly NFKC + lowercase + trim with an
"unknown" sentinel for non-strings and strings blank after trimming;
punctuation such as the ampersand survives: "H&M" maps to "h&m". -/
theorem C6_brand_normalizer :
    brandNorm (Val.str "H&M") = "h&m" ∧
    (preprocess_row [("brand", Val.str "H&M")]).lookup "brand" =
      Option.some (Val.str "h&m") ∧
    (∀ s : String, brandNorm (Val.str s) =
      (if String.mk (stripChars ((nfkc s).toList.map lowerChar)) = ""
       then "unknown"
       else String.mk (stripChars ((nfkc s).toList.map lowerChar)))) ∧
    (∀ v, (∀ s, v ≠ Val.str s) → brandNorm v = "unknown") := by
  refine ⟨by decide, by with_unfolding_all rfl, fun s => rfl, ?_⟩
  intro v h
  cases v with
  | str s => exact absurd rfl (h s)
  | none => rfl
  | bool b => rfl
  | int n => rfl
  | float q => rfl
  | list xs => rfl
  | dict xs => rfl

/-- C6 (witness). -/
theorem C6_brand_normalizer_witness : brandNorm Val.none = "unknown" :=
  C6_brand_normalizer.2.2.2 Val.none (fun s h => Val.noConfusion h)

/-- C7: the facet normalizer is idempotent — normalizing an
already-normalized facet string returns it unchanged. -/
theorem C7_facet_norm_idempotent (s : String) :
    _norm (Val.str (_norm (Val.str s))) = _norm (Val.str s) := by
  show normStr (normStr s) = normStr s
  unfold normStr nfkc
  have h : (String.mk (normChars s.toList)).toList = normChars s.toList := rfl
  rw [h, normChars_idem]

/-- C8: `build_terms` returns the empty sequence, raising no error, on
every non-string input (the model is total; non-strings normalize to the
empty string). -/
theorem C8_build_terms_nonstring (v : Val) (h : ∀ s, v ≠ Val.str s) :
    build_terms v = [] := by
  cases v with
  | str s => exact absurd rfl (h s)
  | none => rfl
  | bool b => rfl
  | int n => rfl
  | float q => rfl
  | list xs => rfl
  | dict xs => rfl

/-- C8 (witness). -/
theorem C8_build_terms_nonstring_witness : build_terms Val.none = [] :=
  C8_build_terms_nonstring Val.none (fun s h => Val.noConfusion h)

/-- C9: out_of_stock is Python truthiness of the raw value — any record
whose out_of_stock is a non-empty string (including "false") normalizes to
true, while a missing key, None, 0, or the empty string normalize to
false. -/
theorem C9_out_of_stock_truthiness :
    (∀ (doc : List (String × Val)) (s : String),
      doc.lookup "out_of_stock" = Option.some (Val.str s) → s ≠ "" →
      (preprocess_row doc).lookup "out_of_stock" =
        Option.some (Val.bool true)) ∧
    (preprocess_row [("out_of_stock", Val.str "false")]).lookup "out_of_stock" =
      Option.some (Val.bool true) ∧
    (∀ doc : List (String × Val), doc.lookup "out_of_stock" = Option.none →
      (preprocess_row doc).lookup "out_of_stock" =
        Option.some (Val.bool false)) ∧
    (preprocess_row [("out_of_stock", Val.none)]).lookup "out_of_stock" =
      Option.some (Val.bool false) ∧
    (preprocess_row [("out_of_stock", Val.int 0)]).lookup "out_of_stock" =
      Option.some (Val.bool false) ∧
    (preprocess_row [("out_of_stock", Val.str "")]).lookup "out_of_stock" =
      Option.some (Val.bool false) := by
  refine ⟨?_, by with_unfolding_all rfl, ?_, by with_unfolding_all rfl,
    by with_unfolding_all rfl, by with_unfolding_all rfl⟩
  · intro doc s hl hs
    rw [lookup_out_of_stock]
    unfold pyGet
    rw [hl]
    have hb : (s != "") = true := bne_iff_ne.mpr hs
    simp [pyBool, hb]
  · intro doc hl
    rw [lookup_out_of_stock]
    unfold pyGet
    rw [hl]
    rfl

/-- C9 (witness). -/
theorem C9_out_of_stock_truthiness_witness :
    (preprocess_row [("out_of_stock", Val.str "yes")]).lookup "out_of_stock" =
      Option.some (Val.bool true) :=
  C9_out_of_stock_truthiness.1 [("out_of_stock", Val.str "yes")] "yes"
    (by with_unfolding_all rfl) (by decide)

/-- C10: the discount parser does not strip commas while the price parser
does, and they disagree on "1,299": `_num` reads 1299.0 while `_disc`
matches only the digit before the comma, returning 0.01. -/
theorem C10_comma_disagreement :
    _num (Val.str "1,299") = Option.some 1299 ∧
    _disc (Val.str "1,299") = Option.some (1 / 100) := by
  constructor
  · with_unfolding_all rfl
  · with_unfolding_all rfl

end IRWA
